import Mathlib

/-!
Verification of the pst-extractor message pipeline
(`src/services/pst-extractor/src/main.rs`).

Text is modelled as `List Char` (Rust `str` iterated by characters) and raw
byte buffers as `List Nat` (each entry one byte).  Rust functions that can
panic are modelled with an `Option` result, `none` meaning a panic; Rust byte
indices/lengths on strings are modelled through `Char.utf8Size`, matching
`str::len`/`String::truncate` byte semantics.
-/

/-- Quote characters written via code points so they can appear inside
character positions: double quote, single quote, backslash, NUL. -/
def dquoteChar : Char := Char.ofNat 34

def squoteChar : Char := Char.ofNat 39

def backslashChar : Char := Char.ofNat 92

def nulChar : Char := Char.ofNat 0

/-- Rust `char::is_whitespace`: the Unicode White_Space property. -/
def rustIsWhitespace (c : Char) : Bool :=
  c = ' ' || c = '\t' || c = '\n' || c = '\x0b' || c = '\x0c' || c = '\r' ||
  c = Char.ofNat 0x85 || c = Char.ofNat 0xA0 || c = Char.ofNat 0x1680 ||
  (Char.ofNat 0x2000 ≤ c && c ≤ Char.ofNat 0x200A) ||
  c = Char.ofNat 0x2028 || c = Char.ofNat 0x2029 ||
  c = Char.ofNat 0x202F || c = Char.ofNat 0x205F || c = Char.ofNat 0x3000

/-- Rust `str::trim_start`. -/
def rustTrimStart (s : List Char) : List Char :=
  s.dropWhile rustIsWhitespace

/-- Rust `str::trim_end`. -/
def rustTrimEnd (s : List Char) : List Char :=
  (s.reverse.dropWhile rustIsWhitespace).reverse

/-- Rust `str::trim`. -/
def rustTrim (s : List Char) : List Char :=
  rustTrimEnd (rustTrimStart s)

/-- Rust `str::trim_matches(c)`: strip every leading and trailing
occurrence of the character `c`. -/
def trimMatchesChar (c : Char) (s : List Char) : List Char :=
  ((s.dropWhile (· = c)).reverse.dropWhile (· = c)).reverse

/-- Rust `u8::to_ascii_lowercase` semantics on a character
(`str::to_ascii_lowercase` maps only the ASCII range A-Z). -/
def asciiLower (c : Char) : Char :=
  if 65 ≤ c.toNat ∧ c.toNat ≤ 90 then Char.ofNat (c.toNat + 32) else c

/-- Rust `str::to_ascii_lowercase`. -/
def asciiLowerStr (s : List Char) : List Char :=
  s.map asciiLower

/-- Rust `char::is_ascii_alphanumeric`. -/
def isAsciiAlnum (c : Char) : Bool :=
  (48 ≤ c.toNat && c.toNat ≤ 57) || (65 ≤ c.toNat && c.toNat ≤ 90) ||
  (97 ≤ c.toNat && c.toNat ≤ 122)

/-- Rust `str::contains(&str)`: substring test, `needle` occurs
contiguously inside `hay`. -/
def containsSub {α : Type} [DecidableEq α] (needle hay : List α) : Bool :=
  hay.tails.any (fun t => needle.isPrefixOf t)

/-- Split a character list at every occurrence of `sep`
(Rust `str::split(sep)`: always at least one piece, empty pieces kept). -/
def splitSep (sep : Char) : List Char → List (List Char)
  | [] => [[]]
  | c :: t =>
    if c = sep then [] :: splitSep sep t
    else
      match splitSep sep t with
      | [] => [[c]]
      | h :: r => (c :: h) :: r

/-- Pieces of a text split at every newline (helper for `rustLines`). -/
def splitNL (s : List Char) : List (List Char) :=
  splitSep '\n' s

/-- Rust `str::lines` on `\r`-free text: split at `\n`, and do not yield a
final empty piece produced by a trailing newline. -/
def rustLines (s : List Char) : List (List Char) :=
  if s = [] then []
  else if s.getLast? = some '\n' then (splitNL s).dropLast
  else splitNL s

/-- Join lines with a single newline between them
(Rust `Vec::join("\n")`). -/
def joinNL : List (List Char) → List Char
  | [] => []
  | [x] => x
  | x :: y :: t => x ++ '\n' :: joinNL (y :: t)

/-- `normalize_newlines` (main.rs 135-137): `text.replace("\r\n", "\n")`
composed with `.replace('\r', "\n")`.  First stage: left-to-right,
non-overlapping replacement of the two-character pattern. -/
def replaceCRLF : List Char → List Char
  | [] => []
  | [c] => [c]
  | c :: d :: t =>
    if c = '\r' ∧ d = '\n' then '\n' :: replaceCRLF t
    else c :: replaceCRLF (d :: t)

/-- Second stage of `normalize_newlines`: every remaining `\r` becomes
`\n`. -/
def replaceCR (s : List Char) : List Char :=
  s.map (fun c => if c = '\r' then '\n' else c)

/-- `normalize_newlines` (main.rs 135-137). -/
def normalize_newlines (s : List Char) : List Char :=
  replaceCR (replaceCRLF s)

/-- `core_alnum_len` (main.rs 139-141): number of ASCII alphanumeric
characters. -/
def core_alnum_len (s : List Char) : Nat :=
  (s.filter isAsciiAlnum).length

/-- The needle `"don't click"` (built without an apostrophe literal). -/
def dontClickNeedle : List Char :=
  "don".data ++ [squoteChar] ++ "t click".data

/-- The banner test of `strip_external_banner_lines` (main.rs 155-164),
applied to the trimmed, ASCII-lowercased line `l`. -/
def looksLikeExternalBanner (l : List Char) : Bool :=
  (containsSub "external email".data l &&
    (containsSub "caution".data l || containsSub "warning".data l ||
     containsSub "external sender".data l || containsSub "originated".data l)) ||
  (("caution".data.isPrefixOf l) && containsSub "external".data l) ||
  (("warning".data.isPrefixOf l) && containsSub "external".data l) ||
  ("this email originated".data.isPrefixOf l) ||
  ("do not click".data.isPrefixOf l) ||
  (dontClickNeedle.isPrefixOf l) ||
  containsSub "unless you recognise".data l ||
  containsSub "unless you recognize".data l ||
  containsSub "expected and known to be safe".data l

/-- A line is kept by `strip_external_banner_lines`: blank after trimming,
or not banner-like (main.rs 148-170). -/
def keepLine (line : List Char) : Bool :=
  let l := asciiLowerStr (rustTrim line)
  if l = [] then true else ! looksLikeExternalBanner l

/-- `strip_external_banner_lines` (main.rs 143-172). -/
def strip_external_banner_lines (text : List Char) : List Char :=
  joinNL (((rustLines (normalize_newlines text)).filter keepLine))

/-- `is_mostly_external_banner` (main.rs 174-185). -/
def is_mostly_external_banner (text : List Char) : Bool :=
  if ! containsSub "external".data (asciiLowerStr text) then false
  else
    let coreTotal := core_alnum_len text
    let coreStripped := core_alnum_len (strip_external_banner_lines text)
    decide (0 < coreTotal) && decide (coreTotal < 220) &&
      decide (coreStripped < 40)

/-- `html_to_text_rough` (main.rs 187-204): drop everything between `<`
and `>` (stateful in-tag flag), used only for scoring. -/
def htmlToTextGo : Bool → List Char → List Char
  | _, [] => []
  | _, '<' :: t => htmlToTextGo true t
  | _, '>' :: t => htmlToTextGo false t
  | inTag, c :: t => if inTag then htmlToTextGo inTag t else c :: htmlToTextGo inTag t

/-- `html_to_text_rough` (main.rs 187-204). -/
def html_to_text_rough (html : List Char) : List Char :=
  htmlToTextGo false html

/-- A parsed MIME part (`mailparse::ParsedMail`): MIME type, header list
(name, decoded value), decoded text body (`get_body`, `none` = error),
and subparts.  A leaf has no subparts. -/
inductive MimeNode : Type where
  | mk (ctype : List Char) (headers : List (List Char × List Char))
       (body : Option (List Char)) (subparts : List MimeNode)

def MimeNode.ctype : MimeNode → List Char
  | .mk c _ _ _ => c

def MimeNode.headers : MimeNode → List (List Char × List Char)
  | .mk _ h _ _ => h

def MimeNode.body : MimeNode → Option (List Char)
  | .mk _ _ b _ => b

def MimeNode.subparts : MimeNode → List MimeNode
  | .mk _ _ _ s => s

/-- `header_first` (main.rs 112-117): first header value under a
case-insensitive name lookup (`mailparse::get_first_value`), trimmed,
dropped when empty. -/
def header_first (m : MimeNode) (name : List Char) : Option (List Char) :=
  match m.headers.find? (fun h => asciiLowerStr h.1 = asciiLowerStr name) with
  | none => none
  | some h =>
    let v := rustTrim h.2
    if v = [] then none else some v

/-- `is_attachment_disposition` (main.rs 128-133). -/
def is_attachment_disposition (part : MimeNode) : Bool :=
  let cd := asciiLowerStr ((header_first part "Content-Disposition".data).getD [])
  "attachment".data.isPrefixOf (rustTrimStart cd)

mutual

/-- `collect_text_bodies` (main.rs 206-230): on a leaf, push the decoded
body when the lowercased MIME type equals or starts with `pfx`, the part
is not attachment-disposed, `get_body` succeeded, and the body is not
blank; on an inner node, recurse into every subpart. -/
def collect_text_bodies (m : MimeNode) (pfx : List Char) : List (List Char) :=
  match m with
  | .mk ctype hs body subs =>
    match subs with
    | [] =>
      let ct := asciiLowerStr ctype
      if ct = pfx ∨ pfx.isPrefixOf ct then
        if is_attachment_disposition (.mk ctype hs body subs) then []
        else
          match body with
          | some b => if rustTrim b = [] then [] else [b]
          | none => []
      else []
    | s :: ss => collect_text_bodies s pfx ++ collectTextBodiesList ss pfx

def collectTextBodiesList (ms : List MimeNode) (pfx : List Char) : List (List Char) :=
  match ms with
  | [] => []
  | s :: ss => collect_text_bodies s pfx ++ collectTextBodiesList ss pfx

end

mutual

/-- The leaves of a MIME tree in document (depth-first, left-to-right)
order; an inner node contributes the leaves of its subparts, a leaf
contributes itself. -/
def leavesOf (m : MimeNode) : List MimeNode :=
  match m with
  | .mk ctype hs body subs =>
    match subs with
    | [] => [.mk ctype hs body subs]
    | s :: ss => leavesOf s ++ leavesOfList ss

def leavesOfList (ms : List MimeNode) : List MimeNode :=
  match ms with
  | [] => []
  | s :: ss => leavesOf s ++ leavesOfList ss

end

/-- What a leaf contributes to `collect_text_bodies` for target `pfx`:
its body when all four leaf conditions hold, nothing otherwise. -/
def bodyCandidate (pfx : List Char) (l : MimeNode) : Option (List Char) :=
  let ct := asciiLowerStr l.ctype
  if (ct = pfx ∨ pfx.isPrefixOf ct) ∧ ¬ (is_attachment_disposition l = true) then
    match l.body with
    | some b => if rustTrim b = [] then none else some b
    | none => none
  else none

/-- The scoring loop of `choose_best_body_text` / `choose_best_body_html`
(main.rs 241-250, 260-271): fold over the enumerated candidates keeping
the first index whose score strictly exceeds every earlier score,
starting from index 0 / score 0. -/
def bestIdxLoop (score : List Char → Nat) (cands : List (List Char)) : Nat :=
  (cands.enum.foldl
    (fun acc ic => if score ic.2 > acc.2 then (ic.1, score ic.2) else acc)
    (0, 0)).1

/-- `choose_best_body_text` (main.rs 232-252): collect `text/plain`
candidates; empty list gives `none`; otherwise return the candidate at
the winning index (`swap_remove` returns the element at that index). -/
def choose_best_body_text (mail : MimeNode) : Option (List Char) :=
  let candidates := collect_text_bodies mail "text/plain".data
  if candidates = [] then none
  else
    some (candidates.getD
      (bestIdxLoop (fun c => core_alnum_len (strip_external_banner_lines c)) candidates)
      [])

/-- `choose_best_body_html` (main.rs 254-273): same loop over `text/html`
candidates, scoring the tag-stripped, banner-filtered text. -/
def choose_best_body_html (mail : MimeNode) : Option (List Char) :=
  let candidates := collect_text_bodies mail "text/html".data
  if candidates = [] then none
  else
    some (candidates.getD
      (bestIdxLoop
        (fun c => core_alnum_len (strip_external_banner_lines (html_to_text_rough c)))
        candidates)
      [])

/-- `select_email_bodies` (main.rs 275-298). -/
def select_email_bodies (mail : MimeNode) : Option (List Char) × Option (List Char) :=
  let bodyText := choose_best_body_text mail
  let bodyHtml := choose_best_body_html mail
  match bodyText, bodyHtml with
  | some bt, some bh =>
    if is_mostly_external_banner bt then
      let candidate := rustTrim (strip_external_banner_lines (html_to_text_rough bh))
      if 20 ≤ core_alnum_len candidate then (some candidate, bodyHtml)
      else (none, bodyHtml)
    else (bodyText, bodyHtml)
  | _, _ => (bodyText, bodyHtml)

/-- 32-bit truncation used throughout SHA-256. -/
def w32 (n : Nat) : Nat := n % 4294967296

/-- Right rotation of a 32-bit word. -/
def rotr32 (n w : Nat) : Nat :=
  w32 ((w >>> n) ||| (w <<< (32 - n)))

/-- Bitwise complement inside 32 bits. -/
def not32 (w : Nat) : Nat := w ^^^ 4294967295

/-- The 64 SHA-256 round constants. -/
def sha256K : List Nat :=
  [1116352408, 1899447441, 3049323471, 3921009573, 961987163,
   1508970993, 2453635748, 2870763221, 3624381080, 310598401,
   607225278, 1426881987, 1925078388, 2162078206, 2614888103,
   3248222580, 3835390401, 4022224774, 264347078, 604807628,
   770255983, 1249150122, 1555081692, 1996064986, 2554220882,
   2821834349, 2952996808, 3210313671, 3336571891, 3584528711,
   113926993, 338241895, 666307205, 773529912, 1294757372,
   1396182291, 1695183700, 1986661051, 2177026350, 2456956037,
   2730485921, 2820302411, 3259730800, 3345764771, 3516065817,
   3600352804, 4094571909, 275423344, 430227734, 506948616,
   659060556, 883997877, 958139571, 1322822218, 1537002063,
   1747873779, 1955562222, 2024104815, 2227730452, 2361852424,
   2428436474, 2756734187, 3204031479, 3329325298]

/-- SHA-256 padding: append `0x80`, zeros to 56 mod 64, and the 64-bit
big-endian bit length. -/
def sha256Pad (msg : List Nat) : List Nat :=
  let len := msg.length
  let zeros := (119 - len % 64) % 64
  let bits := len * 8
  msg ++ [0x80] ++ List.replicate zeros 0 ++
    [bits / 2 ^ 56 % 256, bits / 2 ^ 48 % 256, bits / 2 ^ 40 % 256,
     bits / 2 ^ 32 % 256, bits / 2 ^ 24 % 256, bits / 2 ^ 16 % 256,
     bits / 2 ^ 8 % 256, bits % 256]

/-- Split a byte list into chunks of 64 (count-driven so the recursion is
structural; the padded message length is always a multiple of 64). -/
def chunks64 : Nat → List Nat → List (List Nat)
  | 0, _ => []
  | n + 1, l => l.take 64 :: chunks64 n (l.drop 64)

/-- Big-endian 4-byte group to a 32-bit word. -/
def wordsOfBytes : List Nat → List Nat
  | b0 :: b1 :: b2 :: b3 :: t =>
    (b0 * 2 ^ 24 + b1 * 2 ^ 16 + b2 * 2 ^ 8 + b3) :: wordsOfBytes t
  | _ => []

/-- One step of the SHA-256 message-schedule extension: append
`σ1(w[i-2]) + w[i-7] + σ0(w[i-15]) + w[i-16]` for the current length `i`. -/
def scheduleStep (w : List Nat) : List Nat :=
  let i := w.length
  let s0 := rotr32 7 (w.getD (i - 15) 0) ^^^ rotr32 18 (w.getD (i - 15) 0) ^^^
    (w.getD (i - 15) 0 >>> 3)
  let s1 := rotr32 17 (w.getD (i - 2) 0) ^^^ rotr32 19 (w.getD (i - 2) 0) ^^^
    (w.getD (i - 2) 0 >>> 10)
  w ++ [w32 (w.getD (i - 16) 0 + s0 + w.getD (i - 7) 0 + s1)]

/-- Extend the 16 block words to the 64 schedule words. -/
def extendSchedule : Nat → List Nat → List Nat
  | 0, w => w
  | n + 1, w => extendSchedule n (scheduleStep w)

/-- The SHA-256 working-state type: eight 32-bit words. -/
abbrev Sha256State := Nat × Nat × Nat × Nat × Nat × Nat × Nat × Nat

/-- One SHA-256 compression round. -/
def sha256Round (st : Sha256State) (kw : Nat × Nat) : Sha256State :=
  let (a, b, c, d, e, f, g, h) := st
  let bigS1 := rotr32 6 e ^^^ rotr32 11 e ^^^ rotr32 25 e
  let ch := (e &&& f) ^^^ (not32 e &&& g)
  let temp1 := w32 (h + bigS1 + ch + kw.1 + kw.2)
  let bigS0 := rotr32 2 a ^^^ rotr32 13 a ^^^ rotr32 22 a
  let maj := (a &&& b) ^^^ (a &&& c) ^^^ (b &&& c)
  let temp2 := w32 (bigS0 + maj)
  (w32 (temp1 + temp2), a, b, c, w32 (d + temp1), e, f, g)

/-- Compress one 64-byte block into the running hash state. -/
def sha256Block (st : Sha256State) (block : List Nat) : Sha256State :=
  let w := extendSchedule 48 (wordsOfBytes block)
  let (a, b, c, d, e, f, g, h) := st
  let (a2, b2, c2, d2, e2, f2, g2, h2) :=
    (sha256K.zip w).foldl sha256Round st
  (w32 (a + a2), w32 (b + b2), w32 (c + c2), w32 (d + d2),
   w32 (e + e2), w32 (f + f2), w32 (g + g2), w32 (h + h2))

/-- The SHA-256 initial hash value. -/
def sha256Init : Sha256State :=
  (1779033703, 3144134277, 1013904242, 2773480762,
   1359893119, 2600822924, 528734635, 1541459225)

/-- The eight final SHA-256 words of a byte message. -/
def sha256Words (msg : List Nat) : Sha256State :=
  let padded := sha256Pad msg
  (chunks64 (padded.length / 64) padded).foldl sha256Block sha256Init

/-- A 32-bit word as four big-endian bytes. -/
def wordBytes (w : Nat) : List Nat :=
  [w / 2 ^ 24 % 256, w / 2 ^ 16 % 256, w / 2 ^ 8 % 256, w % 256]

/-- SHA-256 digest (32 bytes) of a byte message (`sha2::Sha256`). -/
def sha256 (msg : List Nat) : List Nat :=
  let (a, b, c, d, e, f, g, h) := sha256Words msg
  wordBytes a ++ wordBytes b ++ wordBytes c ++ wordBytes d ++
    wordBytes e ++ wordBytes f ++ wordBytes g ++ wordBytes h

/-- The RFC 4122 bit forcing of `stable_uuid` (main.rs 308-309):
`bytes[6] = (bytes[6] & 0x0F) | 0x50` and
`bytes[8] = (bytes[8] & 0x3F) | 0x80`. -/
def applyRfc4122 : List Nat → List Nat
  | b0 :: b1 :: b2 :: b3 :: b4 :: b5 :: b6 :: b7 :: b8 :: rest =>
    b0 :: b1 :: b2 :: b3 :: b4 :: b5 :: ((b6 &&& 0x0F) ||| 0x50) :: b7 ::
      ((b8 &&& 0x3F) ||| 0x80) :: rest
  | l => l

/-- `stable_uuid` (main.rs 300-311): SHA-256 of the seed bytes, first 16
digest bytes, RFC 4122 version/variant bits forced.  The seed is
modelled as its UTF-8 byte list (`seed.as_bytes()`). -/
def stable_uuid (seed : List Nat) : List Nat :=
  applyRfc4122 ((sha256 seed).take 16)

/-- UTF-8 byte length of a character list (Rust `str::len`). -/
def utf8Len (s : List Char) : Nat :=
  (s.map Char.utf8Size).sum

/-- Keep the first `n` UTF-8 bytes of a string
(Rust `String::truncate(n)` when `n` is below the byte length):
`none` models the Rust panic raised when byte offset `n` is not a
character boundary. -/
def takeBytes : Nat → List Char → Option (List Char)
  | _, [] => some []
  | n, c :: cs =>
    if c.utf8Size ≤ n then (takeBytes (n - c.utf8Size) cs).map (c :: ·)
    else if n = 0 then some []
    else none

/-- `sanitize_filename` (main.rs 319-336): trim; fall back when empty;
replace backslash and slash by underscore; delete NUL, CR, LF; truncate
to 200 UTF-8 bytes when longer (`none` models the truncation panic on a
non-boundary byte offset). -/
def sanitize_filename (value fallback : List Char) : Option (List Char) :=
  let name0 := rustTrim value
  let name1 := if name0 = [] then fallback else name0
  let name2 :=
    (name1.map (fun c => if c = backslashChar then '_' else c)
      |>.map (fun c => if c = '/' then '_' else c)
      |>.filter (fun c => ¬ (c = nulChar ∨ c = '\r' ∨ c = '\n')))
  if utf8Len name2 > 200 then takeBytes 200 name2 else some name2

/-- Index of the first character satisfying `p` (Rust `str::find`). -/
def findPos {α : Type} (p : α → Bool) : List α → Option Nat
  | [] => none
  | c :: t => if p c then some 0 else (findPos p t).map (· + 1)

/-- `parse_sender` (main.rs 419-438).  Result `none` models the panic of
the slice `text[start + 1..end]` when the first `>` lies before the
first `<`; otherwise the pair is (sender email, sender display name).
All indexing happens between one-byte ASCII delimiters, so character
indices coincide with the Rust byte indices. -/
def parse_sender (fromHeader : List Char) :
    Option (Option (List Char) × Option (List Char)) :=
  let text := rustTrim fromHeader
  if text = [] then some (none, none)
  else
    match findPos (· = '<') text, findPos (· = '>') text with
    | some start, some stop =>
      if start + 1 ≤ stop then
        let email := rustTrim ((text.drop (start + 1)).take (stop - (start + 1)))
        let name :=
          trimMatchesChar squoteChar (trimMatchesChar dquoteChar
            (rustTrim (text.take start)))
        some ((if email = [] then none else some email),
              (if name = [] then none else some name))
      else none
    | _, _ =>
      if text.contains '@' then some (some text, none)
      else some (none, some text)

/-- Split at the first `=` (Rust `str::splitn(2, '=')`): the part before
it and, when `=` occurs, the part after it. -/
def splitFirstEq (p : List Char) : List Char × Option (List Char) :=
  if p.contains '=' then
    (p.takeWhile (· ≠ '='), some ((p.dropWhile (· ≠ '=')).drop 1))
  else (p, none)

/-- The parameter-scanning loop of `parse_param` (main.rs 356-376) over
the pieces after the first `;`.  A piece that is blank after trimming is
skipped; a piece with no `=` makes the whole lookup return `none`
(the `?` operator on the second `iter.next()`); on a key match the value
is unquoted and returned, `none` when it unquotes to nothing. -/
def parseParamLoop (keyL : List Char) : List (List Char) → Option (List Char)
  | [] => none
  | piece :: rest =>
    let p := rustTrim piece
    if p = [] then parseParamLoop keyL rest
    else
      match splitFirstEq p with
      | (_, none) => none
      | (k0, some v0) =>
        let k := asciiLowerStr (rustTrim k0)
        let v := rustTrim v0
        if k ≠ keyL then parseParamLoop keyL rest
        else
          let unquoted :=
            rustTrim (trimMatchesChar squoteChar (trimMatchesChar dquoteChar v))
          if unquoted = [] then none else some unquoted

/-- `parse_param` (main.rs 354-378). -/
def parse_param (headerValue key : List Char) : Option (List Char) :=
  parseParamLoop (asciiLowerStr key) ((splitSep ';' headerValue).drop 1)

/-- `parse_filename_from_headers` (main.rs 338-352): the `filename`
parameter of Content-Disposition, else the `name` parameter of
Content-Type. -/
def parse_filename_from_headers (m : MimeNode) : Option (List Char) :=
  match
    (match header_first m "Content-Disposition".data with
     | some cd => parse_param cd "filename".data
     | none => none)
  with
  | some fname => some fname
  | none =>
    match header_first m "Content-Type".data with
    | some ct => parse_param ct "name".data
    | none => none

/-- `is_attachment_part` (main.rs 440-459). -/
def is_attachment_part (part : MimeNode) : Bool :=
  if ! part.subparts.isEmpty then false
  else
    let ctype := asciiLowerStr part.ctype
    if "text/plain".data.isPrefixOf ctype ∨ "text/html".data.isPrefixOf ctype then
      false
    else
      let cd := asciiLowerStr ((header_first part "Content-Disposition".data).getD [])
      let hasFilename := (parse_filename_from_headers part).isSome
      if "attachment".data.isPrefixOf cd then true
      else if "inline".data.isPrefixOf cd ∧ hasFilename then true
      else hasFilename

/-- The `is_inline` computation of the attachment loop in `main`
(main.rs 766-770): Content-Disposition (lowercased, empty when absent)
starts with `inline`, or a Content-ID header is present. -/
def computeIsInline (part : MimeNode) : Bool :=
  let cd := asciiLowerStr ((header_first part "Content-Disposition".data).getD [])
  "inline".data.isPrefixOf cd || (header_first part "Content-ID".data).isSome

/-- The mbox envelope marker `"From "` as bytes. -/
def fromMarker : List Nat := "From ".data.map Char.toNat

/-- `looks_like_mbox` (main.rs 380-382): the blob starts with `From ` or
contains the six-byte window `"\nFrom "` somewhere. -/
def looks_like_mbox (buf : List Nat) : Bool :=
  fromMarker.isPrefixOf buf || containsSub (10 :: fromMarker) buf

/-- The boundary scan of `split_mbox` (main.rs 387-395): offset 0 when
the blob starts with the marker, and `i + 1` for every `i` below
`len - 6` where byte `i` is a newline and the marker follows. -/
def mboxStarts (buf : List Nat) : List Nat :=
  (if fromMarker.isPrefixOf buf then [0] else []) ++
    ((List.range (buf.length - 6)).filter
      (fun i => buf.getD i 0 = 10 && fromMarker.isPrefixOf (buf.drop (i + 1)))).map
      (· + 1)

/-- Insertion of one element into a sorted list (for `sort_unstable`). -/
def insertSorted (x : Nat) : List Nat → List Nat
  | [] => [x]
  | y :: t => if x ≤ y then x :: y :: t else y :: insertSorted x t

/-- Sorting (`Vec::sort_unstable`). -/
def sortNat (l : List Nat) : List Nat :=
  l.foldr insertSorted []

/-- `Vec::dedup`: remove consecutive duplicates. -/
def dedupAdj : List Nat → List Nat
  | [] => []
  | [x] => [x]
  | x :: y :: t => if x = y then dedupAdj (y :: t) else x :: dedupAdj (y :: t)

/-- One segment of `split_mbox` (main.rs 407-414): the bytes from `start`
to `stop`, with everything up to and including the first newline (the
envelope line) removed; nothing when the segment has no newline or the
remainder is empty. -/
def mboxSegment (buf : List Nat) (start stop : Nat) : List (List Nat) :=
  let seg := (buf.drop start).take (stop - start)
  match findPos (· = 10) seg with
  | some pos =>
    let msg := seg.drop (pos + 1)
    if msg = [] then [] else [msg]
  | none => []

/-- The segment loop of `split_mbox` (main.rs 402-415): each boundary up
to the next boundary (or the end of the blob), skipping inverted ranges. -/
def buildSegs (buf : List Nat) : List Nat → List (List Nat)
  | [] => []
  | s :: rest =>
    let e := match rest with | [] => buf.length | t :: _ => t
    (if e ≤ s then [] else mboxSegment buf s e) ++ buildSegs buf rest

/-- `split_mbox` (main.rs 384-417). -/
def split_mbox (buf : List Nat) : List (List Nat) :=
  let starts := mboxStarts buf
  if starts = [] then [buf]
  else buildSegs buf (dedupAdj (sortNat starts))

/-- ASCII text as a byte list (for concrete mbox examples). -/
def strBytes (s : String) : List Nat :=
  s.data.map Char.toNat

/-- The segment boundaries exactly as the specification sentence words
them: offset 0 when the blob starts with the marker, plus every offset
`j` where a newline is immediately followed by the marker. -/
def claimBounds (buf : List Nat) : List Nat :=
  (if fromMarker.isPrefixOf buf then [0] else []) ++
    (List.range (buf.length + 1)).filter
      (fun j => decide (0 < j) && buf.getD (j - 1) 0 = 10 &&
        fromMarker.isPrefixOf (buf.drop j))

/-- Segments taken from one boundary to the next boundary (or the end of
the blob), worded as in the specification: pair each boundary with its
successor. -/
def segsOfBounds (buf : List Nat) (bs : List Nat) : List (List Nat) :=
  (bs.zip (bs.drop 1 ++ [buf.length])).flatMap
    (fun se => mboxSegment buf se.1 se.2)

/-- mbox splitting as the claim words it (boundary scan without the
`i < len - 6` loop bound of the code). -/
def splitMboxClaim (buf : List Nat) : List (List Nat) :=
  let bs := dedupAdj (sortNat (claimBounds buf))
  if bs = [] then [buf] else segsOfBounds buf bs

/-- The amended boundary description: as `claimBounds`, but a marker
occupying the final five bytes of the blob (no byte after it) is not a
boundary. -/
def amendedBounds (buf : List Nat) : List Nat :=
  (if fromMarker.isPrefixOf buf then [0] else []) ++
    (List.range (buf.length + 1)).filter
      (fun j => decide (0 < j) && buf.getD (j - 1) 0 = 10 &&
        fromMarker.isPrefixOf (buf.drop j) && decide (j + 6 ≤ buf.length))

/-- mbox splitting as the amended claim words it. -/
def splitMboxAmended (buf : List Nat) : List (List Nat) :=
  let bs := dedupAdj (sortNat (amendedBounds buf))
  if bs = [] then [buf] else segsOfBounds buf bs

/-- The key of a `;`-parameter piece: everything before the first `=`,
trimmed and ASCII-lowercased. -/
def pieceKey (p : List Char) : List Char :=
  asciiLowerStr (rustTrim (p.takeWhile (· ≠ '=')))

/-- The value of a `;`-parameter piece: everything after the first `=`,
trimmed. -/
def pieceVal (p : List Char) : List Char :=
  rustTrim ((p.dropWhile (· ≠ '=')).drop 1)

/-- Parameter lookup over trimmed non-blank pieces as the claim words
it: find the first piece whose key matches case-insensitively; unquote
and trim its value; an empty result counts as absent. -/
def claimFindParam (keyL : List Char) (pieces : List (List Char)) : Option (List Char) :=
  match ((pieces.map rustTrim).filter (· ≠ [])).find? (fun p => pieceKey p = keyL) with
  | none => none
  | some p =>
    let unquoted :=
      rustTrim (trimMatchesChar squoteChar (trimMatchesChar dquoteChar (pieceVal p)))
    if unquoted = [] then none else some unquoted

/-- Parameter lookup as the claim words it, over the `;`-delimited
pieces after the first. -/
def paramClaimLookup (headerValue key : List Char) : Option (List Char) :=
  claimFindParam (asciiLowerStr key) ((splitSep ';' headerValue).drop 1)

/-- The deterministic-identifier example seed from the specification. -/
def uuidSeedExample : List Nat :=
  strBytes "pst:b1|src:a/b|mid:<id@x>|idx:0"

/-- A message with two text/plain parts both scoring zero (no ASCII
alphanumeric content), the second strictly longer than the first. -/
def zeroScoreMail : MimeNode :=
  .mk "multipart/mixed".data [] none
    [.mk "text/plain".data [] (some "!!!".data) [],
     .mk "text/plain".data [] (some "??????????".data) []]

/-- A non-text leaf disposed as an attachment that also carries a
Content-ID header. -/
def attachmentWithContentId : MimeNode :=
  .mk "application/pdf".data
    [("Content-Disposition".data, "attachment; filename=\"x.pdf\"".data),
     ("Content-ID".data, "<a@b>".data)]
    (some "PDF".data) []

/-- A non-text leaf disposed inline with a filename. -/
def inlineDisposedPart : MimeNode :=
  .mk "image/png".data
    [("Content-Disposition".data, "inline; filename=\"logo.png\"".data)]
    (some "PNG".data) []

/-- The external-banner text of the repository test
`drops_banner_only_plain_when_html_has_meaningful_content`. -/
def bannerPlainBody : List Char :=
  "CAUTION: EXTERNAL EMAIL\nDo not click links unless you recognize the sender".data

/-- The HTML alternative of the same repository test. -/
def htmlOnlyBody : List Char :=
  "<html><body><p>Real content is only in HTML.</p></body></html>".data

/-- A multipart/alternative message whose plain part is only the banner
and whose HTML part carries the content. -/
def bannerHtmlMail : MimeNode :=
  .mk "multipart/alternative".data [] none
    [.mk "text/plain".data [] (some bannerPlainBody) [],
     .mk "text/html".data [] (some htmlOnlyBody) []]

/-- The multipart/mixed message of the repository test
`ignores_text_plain_attachments_when_selecting_body`: one real body part
and one text/plain attachment. -/
def mixedAttachmentMail : MimeNode :=
  .mk "multipart/mixed".data [] none
    [.mk "text/plain".data [] (some "Body text here.".data) [],
     .mk "text/plain".data
       [("Content-Disposition".data, "attachment; filename=\"note.txt\"".data)]
       (some "This is an attached note and should not be selected as the body.".data)
       []]

theorem verNibbleDiv (d : Nat) : ((d &&& 15) ||| 80) / 16 = 5 := by
  have h : d &&& 15 ≤ 15 := Nat.and_le_right
  generalize hX : d &&& 15 = x at h
  interval_cases x <;> rfl

theorem varBitsDiv (d : Nat) : ((d &&& 63) ||| 128) / 64 = 2 := by
  have h : d &&& 63 ≤ 63 := Nat.and_le_right
  generalize hX : d &&& 63 = x at h
  interval_cases x <;> rfl

theorem exists_nine (l : List Nat) (h : 9 ≤ l.length) :
    ∃ b0 b1 b2 b3 b4 b5 b6 b7 b8 rest,
      l = b0 :: b1 :: b2 :: b3 :: b4 :: b5 :: b6 :: b7 :: b8 :: rest := by
  rcases l with _ | ⟨b0, l⟩; · simp at h
  rcases l with _ | ⟨b1, l⟩; · simp at h
  rcases l with _ | ⟨b2, l⟩; · simp at h
  rcases l with _ | ⟨b3, l⟩; · simp at h
  rcases l with _ | ⟨b4, l⟩; · simp at h
  rcases l with _ | ⟨b5, l⟩; · simp at h
  rcases l with _ | ⟨b6, l⟩; · simp at h
  rcases l with _ | ⟨b7, l⟩; · simp at h
  rcases l with _ | ⟨b8, l⟩; · simp at h
  exact ⟨b0, b1, b2, b3, b4, b5, b6, b7, b8, l, rfl⟩

theorem applyRfc4122_eq (b0 b1 b2 b3 b4 b5 b6 b7 b8 : Nat) (rest : List Nat) :
    applyRfc4122 (b0 :: b1 :: b2 :: b3 :: b4 :: b5 :: b6 :: b7 :: b8 :: rest) =
      b0 :: b1 :: b2 :: b3 :: b4 :: b5 :: ((b6 &&& 15) ||| 80) :: b7 ::
        ((b8 &&& 63) ||| 128) :: rest := rfl

theorem sha256_length (m : List Nat) : (sha256 m).length = 32 := by
  rcases hw : sha256Words m with ⟨a, b, c, d, e, f, g, h⟩
  simp [sha256, hw, wordBytes]

/-- C1: `stable_uuid` is exactly SHA-256 of the UTF-8 seed bytes,
truncated to the first 16 digest bytes with the RFC 4122 bit patterns
forced: the result is 16 bytes, byte 6 has high nibble `0x5`, and byte 8
has top two bits `10` (value in `0x80..0xBF`), for every seed.
Determinism is immediate: `stable_uuid` is a pure function of the seed
byte list, so two invocations with the same seed (such as the
specification example `"pst:b1|src:a/b|mid:<id@x>|idx:0"`) give
bit-identical results. -/
theorem C1_stable_uuid_sha256_rfc4122 (seed : List Nat) :
    stable_uuid seed = applyRfc4122 ((sha256 seed).take 16) ∧
    (stable_uuid seed).length = 16 ∧
    (stable_uuid seed).getD 6 0 / 16 = 5 ∧
    (stable_uuid seed).getD 8 0 / 64 = 2 := by
  have hlen : ((sha256 seed).take 16).length = 16 := by
    simp [List.length_take, sha256_length]
  obtain ⟨b0, b1, b2, b3, b4, b5, b6, b7, b8, rest, hEq⟩ :=
    exists_nine ((sha256 seed).take 16) (by omega)
  have hrest : rest.length = 7 := by
    rw [hEq] at hlen; simp at hlen; omega
  refine ⟨rfl, ?_, ?_, ?_⟩
  · show (applyRfc4122 ((sha256 seed).take 16)).length = 16
    rw [hEq, applyRfc4122_eq]; simp [hrest]
  · show (applyRfc4122 ((sha256 seed).take 16)).getD 6 0 / 16 = 5
    rw [hEq, applyRfc4122_eq]
    simp only [List.getD_cons_succ, List.getD_cons_zero]
    exact verNibbleDiv b6
  · show (applyRfc4122 ((sha256 seed).take 16)).getD 8 0 / 64 = 2
    rw [hEq, applyRfc4122_eq]
    simp only [List.getD_cons_succ, List.getD_cons_zero]
    exact varBitsDiv b8

/-- C2: refuted by the code — the per-message helpers are not total.
`parse_sender` evaluates the Rust slice `text[start + 1..end]` with the
first `>` before the first `<` (input `"><"`), which panics
(modelled `none`), and `sanitize_filename` calls `String::truncate(200)`
on a byte offset inside a multi-byte character (one hundred three-byte
characters), which also panics.  Either panic unwinds out of the
per-message loop and terminates the run. -/
theorem C2_per_message_helpers_panic :
    parse_sender "><".data = none ∧
    sanitize_filename (List.replicate 100 '€') "attachment.bin".data = none := by
  constructor
  · decide
  · decide

/-- C3: refuted by the code — when every text/plain candidate scores
zero, `choose_best_body_text` returns the first candidate, not the
longest one: in `zeroScoreMail` both candidates score zero, the second
is strictly longer, yet the first (`"!!!"`) is returned
(`best_idx` never moves off 0 because no score is strictly positive). -/
theorem C3_all_zero_scores_first_not_longest :
    collect_text_bodies zeroScoreMail "text/plain".data =
      ["!!!".data, "??????????".data] ∧
    core_alnum_len (strip_external_banner_lines "!!!".data) = 0 ∧
    core_alnum_len (strip_external_banner_lines "??????????".data) = 0 ∧
    ("!!!".data).length < ("??????????".data).length ∧
    choose_best_body_text zeroScoreMail = some "!!!".data := by
  refine ⟨by decide, by decide, by decide, by decide, by decide⟩

/-- C4: counterexample — a non-text leaf with
`Content-Disposition: attachment; filename="x.pdf"` and a `Content-ID`
header is classified as an attachment, yet the assembled `is_inline`
flag is `true`, not `false`: the code computes
`is_inline = cd.starts_with("inline") || content_id.is_some()`, so a
present Content-ID overrides the attachment disposition, contradicting
the claim that the flag is false regardless of Content-ID. -/
theorem C4_attachment_with_content_id_inline :
    is_attachment_part attachmentWithContentId = true ∧
    "attachment".data.isPrefixOf
      (asciiLowerStr
        ((header_first attachmentWithContentId "Content-Disposition".data).getD [])) =
      true ∧
    (header_first attachmentWithContentId "Content-ID".data).isSome = true ∧
    computeIsInline attachmentWithContentId = true := by
  refine ⟨by decide, by decide, by decide, by decide⟩

/-- C4 (amended): a leaf whose Content-Disposition starts with
`attachment` is recorded non-inline exactly when no Content-ID header is
present (`is_inline` is the presence of Content-ID there), and a leaf
whose Content-Disposition starts with `inline` is always recorded
inline. -/
theorem C4_inline_flag_amended :
    (∀ part : MimeNode,
      "attachment".data.isPrefixOf
        (asciiLowerStr ((header_first part "Content-Disposition".data).getD [])) = true →
      computeIsInline part = (header_first part "Content-ID".data).isSome) ∧
    (∀ part : MimeNode,
      "inline".data.isPrefixOf
        (asciiLowerStr ((header_first part "Content-Disposition".data).getD [])) = true →
      computeIsInline part = true) := by
  constructor
  · intro part hA
    have hni : "inline".data.isPrefixOf
        (asciiLowerStr ((header_first part "Content-Disposition".data).getD [])) = false := by
      rw [List.isPrefixOf_iff_prefix] at hA
      obtain ⟨t, ht⟩ := hA
      cases hni : "inline".data.isPrefixOf
          (asciiLowerStr ((header_first part "Content-Disposition".data).getD [])) with
      | false => rfl
      | true =>
        rw [List.isPrefixOf_iff_prefix] at hni
        obtain ⟨u, hu⟩ := hni
        rw [← ht] at hu
        simp at hu
    simp [computeIsInline, hni]
  · intro part hI
    simp [computeIsInline, hI]

/-- C4 (witness): the amended statement applied to the two concrete
parts — the attachment-disposed part with a Content-ID is inline, and
the inline-disposed part is inline. -/
theorem C4_inline_flag_amended_witness :
    computeIsInline attachmentWithContentId = true ∧
    computeIsInline inlineDisposedPart = true := by
  constructor
  · rw [C4_inline_flag_amended.1 attachmentWithContentId (by decide)]; decide
  · exact C4_inline_flag_amended.2 inlineDisposedPart (by decide)

theorem takeBytes_utf8Len : ∀ (n : Nat) (s r : List Char),
    takeBytes n s = some r → utf8Len r ≤ n := by
  intro n s
  induction s generalizing n with
  | nil =>
    intro r h
    simp [takeBytes] at h
    subst h
    simp [utf8Len]
  | cons c cs ih =>
    intro r h
    simp only [takeBytes] at h
    split at h
    · rename_i hsz
      rcases hmap : takeBytes (n - c.utf8Size) cs with _ | r0 <;> rw [hmap] at h
      · simp at h
      · simp at h
        rw [← h]
        have hrec := ih (n - c.utf8Size) r0 hmap
        simp only [utf8Len, List.map_cons, List.sum_cons]
        have : 0 < c.utf8Size := Char.utf8Size_pos c
        simp only [utf8Len] at hrec
        omega
    · split at h
      · rename_i hz
        simp at h
        subst h
        simp [utf8Len]
      · simp at h

theorem takeBytes_subset : ∀ (n : Nat) (s r : List Char),
    takeBytes n s = some r → ∀ c ∈ r, c ∈ s := by
  intro n s
  induction s generalizing n with
  | nil =>
    intro r h
    simp [takeBytes] at h
    subst h
    simp
  | cons c cs ih =>
    intro r h
    simp only [takeBytes] at h
    split at h
    · rcases hmap : takeBytes (n - c.utf8Size) cs with _ | r0 <;> rw [hmap] at h
      · simp at h
      · simp at h
        rw [← h]
        intro x hx
        rcases List.mem_cons.mp hx with h1 | h2
        · simp [h1]
        · exact List.mem_cons_of_mem c (ih _ r0 hmap x h2)
    · split at h
      · simp at h
        subst h
        simp
      · simp at h

theorem cleaned_props (l : List Char) :
    ∀ c ∈ ((l.map (fun c => if c = backslashChar then '_' else c)).map
        (fun c => if c = '/' then '_' else c)).filter
        (fun c => ¬ (c = nulChar ∨ c = '\r' ∨ c = '\n')),
      ¬(c = '/' ∨ c = backslashChar ∨ c = nulChar ∨ c = '\r' ∨ c = '\n') := by
  intro c hc
  rw [List.mem_filter] at hc
  obtain ⟨hmem, hpred⟩ := hc
  rw [List.mem_map] at hmem
  obtain ⟨z, hz, hcz⟩ := hmem
  rw [List.mem_map] at hz
  obtain ⟨y, hy, hyz⟩ := hz
  simp only [decide_not, Bool.not_eq_eq_eq_not, Bool.not_true,
    decide_eq_false_iff_not] at hpred
  subst hcz
  subst hyz
  by_cases h1 : y = backslashChar <;> by_cases h2 : y = '/' <;>
    simp_all <;> decide

theorem sanitize_filename_sound (v fb r : List Char)
    (h : sanitize_filename v fb = some r) :
    utf8Len r ≤ 200 ∧
      ∀ c ∈ r, ¬(c = '/' ∨ c = backslashChar ∨ c = nulChar ∨ c = '\r' ∨ c = '\n') := by
  simp only [sanitize_filename] at h
  split at h <;> split at h
  all_goals first
    | exact ⟨takeBytes_utf8Len 200 _ r h,
        fun c hc => cleaned_props _ c (takeBytes_subset 200 _ r h c hc)⟩
    | (rename_i hle
       rw [Option.some_inj] at h
       subst h
       exact ⟨by omega, fun c hc => cleaned_props _ c hc⟩)

set_option maxRecDepth 10000 in
/-- C5: counterexample — `sanitize_filename` caps the result at 200
UTF-8 *bytes*, not 200 characters: a 300-character name of two-byte
characters comes back as its first 100 characters (200 bytes), not its
first 200 characters as the claim states. -/
theorem C5_byte_truncation_counterexample :
    sanitize_filename (List.replicate 300 'é') "attachment.bin".data =
      some (List.replicate 100 'é') ∧
    (List.replicate 300 'é').length = 300 ∧
    ¬ (List.replicate 100 'é' = (List.replicate 300 'é').take 200) := by
  refine ⟨by decide, by decide, by decide⟩

set_option maxRecDepth 10000 in
/-- C5 (amended): `sanitize_filename` replaces backslash and slash by
underscore, strips NUL/CR/LF, replaces an empty-after-trim name by the
fallback, and caps the result at 200 UTF-8 bytes by plain truncation at
byte offset 200 (for ASCII names, bytes coincide with characters): every
successful result is at most 200 bytes and free of slash, backslash,
NUL, CR and LF; `"../../etc/passwd"` sanitizes to `".._.._etc_passwd"`;
a 300-character ASCII name truncates to its first 200 characters; and a
300-character name of two-byte characters truncates to its first 100
characters (200 bytes). -/
theorem C5_sanitize_filename_amended :
    (∀ v fb r : List Char, sanitize_filename v fb = some r →
      utf8Len r ≤ 200 ∧
        ∀ c ∈ r, ¬(c = '/' ∨ c = backslashChar ∨ c = nulChar ∨ c = '\r' ∨ c = '\n')) ∧
    sanitize_filename "../../etc/passwd".data "attachment.bin".data =
      some ".._.._etc_passwd".data ∧
    sanitize_filename (List.replicate 300 'a') "attachment.bin".data =
      some (List.replicate 200 'a') ∧
    sanitize_filename (List.replicate 300 'é') "attachment.bin".data =
      some (List.replicate 100 'é') := by
  refine ⟨sanitize_filename_sound, by decide, by decide, by decide⟩

/-- C5 (witness): the amended statement applied at the path-traversal
example input. -/
theorem C5_sanitize_filename_amended_witness :
    utf8Len ".._.._etc_passwd".data ≤ 200 ∧
      ∀ c ∈ ".._.._etc_passwd".data,
        ¬(c = '/' ∨ c = backslashChar ∨ c = nulChar ∨ c = '\r' ∨ c = '\n') :=
  C5_sanitize_filename_amended.1 "../../etc/passwd".data "attachment.bin".data
    ".._.._etc_passwd".data (by decide)

theorem contains_external_alnum_pos (t : List Char)
    (h : containsSub "external".data (asciiLowerStr t) = true) :
    0 < core_alnum_len t := by
  unfold containsSub at h
  rw [List.any_eq_true] at h
  obtain ⟨x, hx, hpre⟩ := h
  rw [List.mem_tails] at hx
  rw [List.isPrefixOf_iff_prefix] at hpre
  have hmem : 'e' ∈ asciiLowerStr t := by
    have h1 : 'e' ∈ "external".data := by decide
    exact hx.subset (hpre.subset h1)
  rw [asciiLowerStr, List.mem_map] at hmem
  obtain ⟨c, hc, hlc⟩ := hmem
  have halnum : isAsciiAlnum c = true := by
    unfold asciiLower at hlc
    split at hlc
    · rename_i hAZ
      simp only [isAsciiAlnum, Bool.or_eq_true, Bool.and_eq_true, decide_eq_true_eq]
      omega
    · subst hlc
      decide
  have hmemf : c ∈ t.filter isAsciiAlnum := List.mem_filter.mpr ⟨hc, halnum⟩
  unfold core_alnum_len
  exact List.length_pos.mpr (List.ne_nil_of_mem hmemf)

theorem is_mostly_banner_of (bt : List Char)
    (h3 : containsSub "external".data (asciiLowerStr bt) = true)
    (h4 : core_alnum_len bt < 220)
    (h5 : core_alnum_len (strip_external_banner_lines bt) < 40) :
    is_mostly_external_banner bt = true := by
  have hpos := contains_external_alnum_pos bt h3
  simp [is_mostly_external_banner, h3, h4, h5, hpos]

/-- C6: when the chosen plain-text body is classified mostly-banner (its
ASCII-lowercased form contains `external`, its ASCII-alphanumeric count
is below 220, and its post-filter count is below 40 — the code also
checks that the total count is positive, which already follows from the
`external` occurrence) and an HTML body was also chosen,
`select_email_bodies` stores as plain text the banner-filtered,
tag-stripped, trimmed derivation of the HTML body when it keeps at least
20 ASCII alphanumerics, and stores no plain-text body otherwise; the
HTML body is stored unmodified either way. -/
theorem C6_banner_override (mail : MimeNode) (bt bh : List Char)
    (h1 : choose_best_body_text mail = some bt)
    (h2 : choose_best_body_html mail = some bh)
    (h3 : containsSub "external".data (asciiLowerStr bt) = true)
    (h4 : core_alnum_len bt < 220)
    (h5 : core_alnum_len (strip_external_banner_lines bt) < 40) :
    select_email_bodies mail =
      ((if 20 ≤ core_alnum_len
            (rustTrim (strip_external_banner_lines (html_to_text_rough bh)))
        then some (rustTrim (strip_external_banner_lines (html_to_text_rough bh)))
        else none),
       some bh) := by
  have hb := is_mostly_banner_of bt h3 h4 h5
  simp only [select_email_bodies, h1, h2, hb]
  by_cases hc : 20 ≤ core_alnum_len
      (rustTrim (strip_external_banner_lines (html_to_text_rough bh))) <;>
    simp [hc]

/-- C6 (witness): the banner-override behaviour on the repository test
message whose plain part is only the external banner and whose HTML
alternative carries the content. -/
theorem C6_banner_override_witness :
    select_email_bodies bannerHtmlMail =
      ((if 20 ≤ core_alnum_len
            (rustTrim (strip_external_banner_lines (html_to_text_rough htmlOnlyBody)))
        then some (rustTrim (strip_external_banner_lines (html_to_text_rough htmlOnlyBody)))
        else none),
       some htmlOnlyBody) :=
  C6_banner_override bannerHtmlMail bannerPlainBody htmlOnlyBody (by decide) (by decide)
    (by decide) (by decide) (by decide)

theorem collectList_eq (pfx : List Char) :
    ∀ ss : List MimeNode,
      (∀ s ∈ ss, collect_text_bodies s pfx = (leavesOf s).filterMap (bodyCandidate pfx)) →
      collectTextBodiesList ss pfx = (leavesOfList ss).filterMap (bodyCandidate pfx) := by
  intro ss
  induction ss with
  | nil => intro _; rfl
  | cons s t ih =>
    intro h
    simp only [collectTextBodiesList, leavesOfList, List.filterMap_append]
    rw [h s (List.mem_cons_self s t), ih (fun x hx => h x (List.mem_cons_of_mem s hx))]

theorem collect_leaf_eq (pfx c : List Char) (hs : List (List Char × List Char))
    (b : Option (List Char)) :
    collect_text_bodies (.mk c hs b []) pfx =
      (leavesOf (.mk c hs b [])).filterMap (bodyCandidate pfx) := by
  simp only [collect_text_bodies, leavesOf, List.filterMap]
  simp only [bodyCandidate, MimeNode.ctype, MimeNode.body,
    List.isPrefixOf_iff_prefix]
  by_cases hct : asciiLowerStr c = pfx ∨ pfx <+: asciiLowerStr c
  · simp only [hct, if_pos]
    by_cases hatt : is_attachment_disposition (.mk c hs b []) = true
    · simp [hatt]
    · simp only [hatt]
      simp only [Bool.not_eq_true] at hatt
      cases b with
      | none => simp [hatt]
      | some bb =>
        by_cases htr : rustTrim bb = []
        · simp [htr, hatt]
        · simp [htr, hatt]
  · simp [hct]

theorem collect_eq_of_size (pfx : List Char) :
    ∀ (n : Nat) (m : MimeNode), sizeOf m ≤ n →
      collect_text_bodies m pfx = (leavesOf m).filterMap (bodyCandidate pfx) := by
  intro n
  induction n with
  | zero =>
    intro m hm
    rcases m with ⟨c, hs, b, subs⟩
    simp only [MimeNode.mk.sizeOf_spec] at hm
    omega
  | succ n ih =>
    intro m hm
    rcases m with ⟨c, hs, b, subs⟩
    cases subs with
    | nil => exact collect_leaf_eq pfx c hs b
    | cons s ss =>
      have hsz : ∀ x ∈ s :: ss, sizeOf x ≤ n := by
        intro x hx
        have h1 : sizeOf x < sizeOf (s :: ss) := List.sizeOf_lt_of_mem hx
        simp only [MimeNode.mk.sizeOf_spec] at hm
        omega
      simp only [collect_text_bodies, leavesOf, List.filterMap_append]
      rw [ih s (hsz s (List.mem_cons_self s ss)),
        collectList_eq pfx ss (fun x hx => ih x (hsz x (List.mem_cons_of_mem s hx)))]

/-- C8: body-candidate collection never yields an attachment-disposed
leaf: for every MIME tree and target prefix, `collect_text_bodies`
equals the document-order leaves filtered through `bodyCandidate`, which
yields a body only when the lowercased MIME type equals or starts with
the prefix AND the leaf is not attachment-disposed (and the decoded body
exists and is non-blank).  On the concrete multipart/mixed message with
a text/plain attachment, body selection returns `"Body text here."` and
the attachment leaf contributes no candidate. -/
theorem C8_body_candidates_exclude_attachments :
    (∀ (m : MimeNode) (pfx : List Char),
      collect_text_bodies m pfx = (leavesOf m).filterMap (bodyCandidate pfx)) ∧
    collect_text_bodies mixedAttachmentMail "text/plain".data =
      ["Body text here.".data] ∧
    choose_best_body_text mixedAttachmentMail = some "Body text here.".data ∧
    is_attachment_disposition
      (mixedAttachmentMail.subparts.getD 1 mixedAttachmentMail) = true ∧
    bodyCandidate "text/plain".data
      (mixedAttachmentMail.subparts.getD 1 mixedAttachmentMail) = none := by
  refine ⟨fun m pfx => collect_eq_of_size pfx (sizeOf m) m (le_refl _),
    by decide, by decide, by decide, by decide⟩

theorem claimFindParam_cons_blank (keyL piece : List Char) (rest : List (List Char))
    (hp : rustTrim piece = []) :
    claimFindParam keyL (piece :: rest) = claimFindParam keyL rest := by
  simp [claimFindParam, hp]

theorem claimFindParam_cons_match (keyL piece : List Char) (rest : List (List Char))
    (hp : rustTrim piece ≠ []) (hk : pieceKey (rustTrim piece) = keyL) :
    claimFindParam keyL (piece :: rest) =
      (if rustTrim (trimMatchesChar squoteChar
            (trimMatchesChar dquoteChar (pieceVal (rustTrim piece)))) = []
       then none
       else some (rustTrim (trimMatchesChar squoteChar
            (trimMatchesChar dquoteChar (pieceVal (rustTrim piece)))))) := by
  simp [claimFindParam, List.find?_cons, hp, hk]

theorem claimFindParam_cons_nomatch (keyL piece : List Char) (rest : List (List Char))
    (hp : rustTrim piece ≠ []) (hk : ¬ (pieceKey (rustTrim piece) = keyL)) :
    claimFindParam keyL (piece :: rest) = claimFindParam keyL rest := by
  simp [claimFindParam, List.find?_cons, hp, hk]

theorem parseParamLoop_cons_eq (keyL piece : List Char) (rest : List (List Char))
    (hp : rustTrim piece ≠ []) (hcont : (rustTrim piece).contains '=' = true) :
    parseParamLoop keyL (piece :: rest) =
      (if pieceKey (rustTrim piece) ≠ keyL then parseParamLoop keyL rest
       else if rustTrim (trimMatchesChar squoteChar
            (trimMatchesChar dquoteChar (pieceVal (rustTrim piece)))) = []
       then none
       else some (rustTrim (trimMatchesChar squoteChar
            (trimMatchesChar dquoteChar (pieceVal (rustTrim piece)))))) := by
  simp only [parseParamLoop, splitFirstEq]
  rw [if_neg hp, if_pos hcont]
  rfl

theorem paramLoop_eq_claimFind (keyL : List Char) :
    ∀ pieces : List (List Char),
      (∀ p ∈ pieces, rustTrim p ≠ [] → (rustTrim p).contains '=' = true) →
      parseParamLoop keyL pieces = claimFindParam keyL pieces := by
  intro pieces
  induction pieces with
  | nil => intro _; rfl
  | cons piece rest ih =>
    intro h
    have hrest := fun p hp => h p (List.mem_cons_of_mem piece hp)
    by_cases hp : rustTrim piece = []
    · simp only [parseParamLoop]
      rw [if_pos hp, ih hrest, claimFindParam_cons_blank keyL piece rest hp]
    · have hcont := h piece (List.mem_cons_self piece rest) hp
      rw [parseParamLoop_cons_eq keyL piece rest hp hcont]
      by_cases hk : pieceKey (rustTrim piece) = keyL
      · rw [claimFindParam_cons_match keyL piece rest hp hk, if_neg (by simp [hk])]
      · rw [claimFindParam_cons_nomatch keyL piece rest hp hk, if_pos hk]
        exact ih hrest

/-- C9 (amended): parameter lookup matches the claimed description —
key matched case-insensitively across the `;`-delimited parameters,
quotes and whitespace trimmed, empty-after-unquoting counts as absent,
and Content-Disposition `filename` is preferred over Content-Type
`name` — PROVIDED every non-blank parameter piece contains an `=`.  A
non-blank piece with no `=` makes `parse_param` report the parameter as
absent immediately (the `?` operator aborts the scan), even when a
matching parameter follows. -/
theorem C9_param_resolution_amended :
    (∀ hv key : List Char,
      (∀ p ∈ (splitSep ';' hv).drop 1, rustTrim p ≠ [] → (rustTrim p).contains '=' = true) →
      parse_param hv key = paramClaimLookup hv key) ∧
    (∀ (m : MimeNode) (cd f : List Char),
      header_first m "Content-Disposition".data = some cd →
      parse_param cd "filename".data = some f →
      parse_filename_from_headers m = some f) ∧
    (∀ (m : MimeNode) (cd : List Char),
      header_first m "Content-Disposition".data = some cd →
      parse_param cd "filename".data = none →
      parse_filename_from_headers m =
        (match header_first m "Content-Type".data with
         | some ct => parse_param ct "name".data
         | none => none)) := by
  refine ⟨?_, ?_, ?_⟩
  · intro hv key hwf
    exact paramLoop_eq_claimFind (asciiLowerStr key) _ hwf
  · intro m cd f hcd hpp
    simp [parse_filename_from_headers, hcd, hpp]
  · intro m cd hcd hpp
    unfold parse_filename_from_headers
    rw [hcd]
    show (match parse_param cd "filename".data with
          | some fname => some fname
          | none =>
            match header_first m "Content-Type".data with
            | some ct => parse_param ct "name".data
            | none => none) =
      (match header_first m "Content-Type".data with
       | some ct => parse_param ct "name".data
       | none => none)
    rw [hpp]

/-- C9 (witness): the amended statement applied at the well-formed
header value and at the concrete attachment part. -/
theorem C9_param_resolution_amended_witness :
    parse_param "attachment; filename=\"x.pdf\"".data "filename".data =
      paramClaimLookup "attachment; filename=\"x.pdf\"".data "filename".data ∧
    parse_filename_from_headers attachmentWithContentId = some "x.pdf".data := by
  constructor
  · exact C9_param_resolution_amended.1 _ _ (by decide)
  · exact C9_param_resolution_amended.2.1 attachmentWithContentId
      "attachment; filename=\"x.pdf\"".data "x.pdf".data (by decide) (by decide)

/-- C9: counterexample — with a malformed parameter `foo` (no `=`)
before it, the `filename` parameter is never found (`parse_param`
returns `none`), although the claim says the key is matched across all
parameters regardless of malformed ones appearing earlier; the same
value without the malformed piece is found. -/
theorem C9_malformed_param_counterexample :
    parse_param "attachment; foo; filename=x.pdf".data "filename".data = none ∧
    paramClaimLookup "attachment; foo; filename=x.pdf".data "filename".data =
      some "x.pdf".data ∧
    parse_param "attachment; filename=x.pdf".data "filename".data =
      some "x.pdf".data := by
  refine ⟨by decide, by decide, by decide⟩

theorem filter_range_shift (q : Nat → Bool) (n : Nat) (h0 : q 0 = false) :
    (List.range (n + 1)).filter q =
      ((List.range n).filter (fun i => q (i + 1))).map (· + 1) := by
  induction n with
  | zero => simp [List.range_succ, List.filter, h0]
  | succ n ih =>
    rw [List.range_succ (n + 1), List.filter_append, ih, List.range_succ n,
      List.filter_append, List.map_append]
    congr 1
    cases hq : q (n + 1) <;> simp [List.filter, hq]

theorem filter_range_le (p : Nat → Bool) (a b : Nat) (hab : a ≤ b)
    (h : ∀ i, a ≤ i → p i = false) :
    (List.range b).filter p = (List.range a).filter p := by
  obtain ⟨k, rfl⟩ := Nat.exists_eq_add_of_le hab
  induction k with
  | zero => rfl
  | succ k ih =>
    rw [show a + (k + 1) = (a + k) + 1 by omega, List.range_succ,
      List.filter_append, ih (by omega)]
    have hk : p (a + k) = false := h (a + k) (by omega)
    simp [List.filter, hk]

theorem mboxStarts_eq_amended (buf : List Nat) :
    mboxStarts buf = amendedBounds buf := by
  unfold mboxStarts amendedBounds
  congr 1
  symm
  have hhi : ∀ j, (buf.length - 6) + 1 ≤ j →
      (decide (0 < j) && buf.getD (j - 1) 0 = 10 &&
        fromMarker.isPrefixOf (buf.drop j) && decide (j + 6 ≤ buf.length)) = false := by
    intro j hj
    have hnot : ¬ (j + 6 ≤ buf.length) := by omega
    simp [hnot]
  rw [filter_range_le _ ((buf.length - 6) + 1) _ (by omega) hhi]
  rw [filter_range_shift _ _ (by simp)]
  congr 1
  apply List.filter_congr
  intro i hi
  rw [List.mem_range] at hi
  have h7 : i + 1 + 6 ≤ buf.length := by omega
  simp [Nat.add_sub_cancel, h7]

theorem mboxSegment_degenerate (buf : List Nat) (s e : Nat) (h : e ≤ s) :
    mboxSegment buf s e = [] := by
  unfold mboxSegment
  rw [show e - s = 0 by omega]
  simp [findPos]

theorem segsOfBounds_cons_cons (buf : List Nat) (s r : Nat) (rr : List Nat) :
    segsOfBounds buf (s :: r :: rr) =
      mboxSegment buf s r ++ segsOfBounds buf (r :: rr) := by
  simp [segsOfBounds]

theorem segsOfBounds_single (buf : List Nat) (s : Nat) :
    segsOfBounds buf [s] = mboxSegment buf s buf.length := by
  simp [segsOfBounds]

theorem buildSegs_eq (buf : List Nat) :
    ∀ bs : List Nat, buildSegs buf bs = segsOfBounds buf bs := by
  intro bs
  induction bs with
  | nil => rfl
  | cons s rest ih =>
    cases rest with
    | nil =>
      rw [segsOfBounds_single]
      by_cases h : buf.length ≤ s
      · simp [buildSegs, h, mboxSegment_degenerate buf s buf.length h]
      · simp [buildSegs, h]
    | cons r rr =>
      rw [segsOfBounds_cons_cons, ← ih]
      by_cases h : r ≤ s
      · simp [buildSegs, h, mboxSegment_degenerate buf s r h]
      · simp [buildSegs, h]

theorem insertSorted_ne_nil (x : Nat) (l : List Nat) : insertSorted x l ≠ [] := by
  cases l with
  | nil => simp [insertSorted]
  | cons y t =>
    simp only [insertSorted]
    split <;> simp

theorem sortNat_eq_nil_iff (l : List Nat) : sortNat l = [] ↔ l = [] := by
  cases l with
  | nil => simp [sortNat]
  | cons x t =>
    simp only [sortNat, List.foldr_cons]
    constructor
    · intro h
      exact absurd h (insertSorted_ne_nil x _)
    · intro h
      exact absurd h (by simp)

theorem dedupAdj_eq_nil_iff : ∀ l : List Nat, dedupAdj l = [] ↔ l = [] := by
  intro l
  induction l with
  | nil => simp [dedupAdj]
  | cons x t ih =>
    cases t with
    | nil => simp [dedupAdj]
    | cons y tt =>
      simp only [dedupAdj]
      split
      · rw [ih]
        simp
      · simp

/-- C7 (amended): `split_mbox` behaves exactly as the claim describes —
boundaries sorted and deduplicated, each segment running to the next
boundary or the end, the envelope line discarded, empty remainders
dropped, the whole blob returned unsplit when no boundary is found —
with one correction to the boundary scan: a newline-plus-marker
occurrence whose marker occupies the final five bytes of the blob (no
byte after it) is NOT a boundary, because the scan loop stops at
`len - 6`.  The two-message example still yields exactly two
MessageBytes without their envelope lines. -/
theorem C7_split_mbox_amended :
    (∀ buf : List Nat, split_mbox buf = splitMboxAmended buf) ∧
    split_mbox (strBytes "From x\nA\nB\nFrom y\nC\n") =
      [strBytes "A\nB\n", strBytes "C\n"] ∧
    looks_like_mbox (strBytes "From x\nA\nB\nFrom y\nC\n") = true := by
  refine ⟨?_, by decide, by decide⟩
  intro buf
  unfold split_mbox splitMboxAmended
  rw [mboxStarts_eq_amended]
  by_cases h : amendedBounds buf = []
  · simp [h, sortNat_eq_nil_iff, dedupAdj_eq_nil_iff]
  · have hs : ¬ (sortNat (amendedBounds buf) = []) :=
      fun hc => h ((sortNat_eq_nil_iff _).mp hc)
    have hd : ¬ (dedupAdj (sortNat (amendedBounds buf)) = []) :=
      fun hc => hs ((dedupAdj_eq_nil_iff _).mp hc)
    simp [h, hd, buildSegs_eq]

/-- C7: counterexample — on `"From a\nb\nFrom "` the claimed boundary
set is {0, 9} (the newline at offset 8 is immediately followed by
`From `), giving segments `["b\n"]`, but the code misses boundary 9
(its scan stops at `len - 6`) and returns `["b\nFrom "]`. -/
theorem C7_trailing_marker_counterexample :
    split_mbox (strBytes "From a\nb\nFrom ") = [strBytes "b\nFrom "] ∧
    splitMboxClaim (strBytes "From a\nb\nFrom ") = [strBytes "b\n"] ∧
    ¬ (split_mbox (strBytes "From a\nb\nFrom ") =
       splitMboxClaim (strBytes "From a\nb\nFrom ")) := by
  refine ⟨by decide, by decide, by decide⟩

theorem splitSep_ne_nil (sep : Char) : ∀ l : List Char, splitSep sep l ≠ [] := by
  intro l
  cases l with
  | nil => simp [splitSep]
  | cons c t =>
    simp only [splitSep]
    split
    · simp
    · split <;> simp

theorem mem_of_mem_splitSep (sep : Char) :
    ∀ (l : List Char) (x : List Char), x ∈ splitSep sep l →
      ∀ c ∈ x, c ∈ l ∧ ¬(c = sep) := by
  intro l
  induction l with
  | nil =>
    intro x hx c hc
    simp [splitSep] at hx
    subst hx
    simp at hc
  | cons c0 t ih =>
    intro x hx c hc
    simp only [splitSep] at hx
    by_cases h0 : c0 = sep
    · rw [if_pos h0] at hx
      rcases List.mem_cons.mp hx with h1 | h2
      · subst h1; simp at hc
      · obtain ⟨hct, hcs⟩ := ih x h2 c hc
        exact ⟨List.mem_cons_of_mem c0 hct, hcs⟩
    · rw [if_neg h0] at hx
      rcases hsp : splitSep sep t with _ | ⟨h, r⟩
      · exact absurd hsp (splitSep_ne_nil sep t)
      · rw [hsp] at hx
        rcases List.mem_cons.mp hx with h1 | h2
        · subst h1
          rcases List.mem_cons.mp hc with h3 | h4
          · subst h3; exact ⟨List.mem_cons_self c t, h0⟩
          · obtain ⟨hct, hcs⟩ := ih h (by rw [hsp]; exact List.mem_cons_self h r) c h4
            exact ⟨List.mem_cons_of_mem c0 hct, hcs⟩
        · obtain ⟨hct, hcs⟩ := ih x (by rw [hsp]; exact List.mem_cons_of_mem h h2) c hc
          exact ⟨List.mem_cons_of_mem c0 hct, hcs⟩

theorem splitSep_no_sep (sep : Char) :
    ∀ x : List Char, sep ∉ x → splitSep sep x = [x] := by
  intro x
  induction x with
  | nil => intro _; rfl
  | cons c t ih =>
    intro h
    have hc : ¬ (c = sep) := fun he => h (by rw [he]; exact List.mem_cons_self sep t)
    have ht : sep ∉ t := fun hm => h (List.mem_cons_of_mem c hm)
    simp only [splitSep]
    rw [if_neg hc, ih ht]

theorem splitSep_append_cons (sep : Char) :
    ∀ (x r : List Char), sep ∉ x →
      splitSep sep (x ++ sep :: r) = x :: splitSep sep r := by
  intro x r
  induction x with
  | nil =>
    intro _
    simp [splitSep]
  | cons c t ih =>
    intro h
    have hc : ¬ (c = sep) := fun he => h (by rw [he]; exact List.mem_cons_self sep t)
    have ht : sep ∉ t := fun hm => h (List.mem_cons_of_mem c hm)
    simp only [List.cons_append, splitSep, List.append_eq]
    rw [if_neg hc, ih ht]

theorem splitNL_joinNL :
    ∀ L : List (List Char), (∀ x ∈ L, '\n' ∉ x) → L ≠ [] →
      splitNL (joinNL L) = L := by
  intro L
  induction L with
  | nil => intro _ h; exact absurd rfl h
  | cons x t ih =>
    intro hno _
    cases t with
    | nil =>
      show splitNL (joinNL [x]) = [x]
      exact splitSep_no_sep '\n' x (hno x (List.mem_cons_self x []))
    | cons y tt =>
      show splitNL (x ++ '\n' :: joinNL (y :: tt)) = x :: y :: tt
      unfold splitNL
      rw [splitSep_append_cons '\n' x _ (hno x (List.mem_cons_self x (y :: tt)))]
      have hrec := ih (fun z hz => hno z (List.mem_cons_of_mem x hz)) (by simp)
      unfold splitNL at hrec
      rw [hrec]

theorem joinNL_concat :
    ∀ (K : List (List Char)) (z : List Char), K ≠ [] →
      joinNL (K ++ [z]) = joinNL K ++ '\n' :: z := by
  intro K
  induction K with
  | nil => intro z h; exact absurd rfl h
  | cons a t ih =>
    intro z _
    cases t with
    | nil => rfl
    | cons b tt =>
      show joinNL (a :: (b :: tt) ++ [z]) = (a ++ '\n' :: joinNL (b :: tt)) ++ '\n' :: z
      have : joinNL (a :: ((b :: tt) ++ [z])) =
          a ++ '\n' :: joinNL ((b :: tt) ++ [z]) := rfl
      rw [show (a :: (b :: tt)) ++ [z] = a :: ((b :: tt) ++ [z]) from rfl, this,
        ih z (by simp), List.append_assoc]
      rfl

theorem mem_joinNL :
    ∀ (L : List (List Char)) (c : Char), c ∈ joinNL L →
      c = '\n' ∨ ∃ x ∈ L, c ∈ x := by
  intro L
  induction L with
  | nil => intro c hc; simp [joinNL] at hc
  | cons x t ih =>
    intro c hc
    cases t with
    | nil =>
      right
      exact ⟨x, List.mem_cons_self x [], hc⟩
    | cons y tt =>
      rw [show joinNL (x :: y :: tt) = x ++ '\n' :: joinNL (y :: tt) from rfl] at hc
      rcases List.mem_append.mp hc with h1 | h2
      · right; exact ⟨x, List.mem_cons_self x (y :: tt), h1⟩
      · rcases List.mem_cons.mp h2 with h3 | h4
        · left; exact h3
        · rcases ih c h4 with h5 | ⟨z, hz, hcz⟩
          · left; exact h5
          · right; exact ⟨z, List.mem_cons_of_mem x hz, hcz⟩

theorem no_cr_normalize (s : List Char) : '\r' ∉ normalize_newlines s := by
  intro hmem
  unfold normalize_newlines replaceCR at hmem
  rw [List.mem_map] at hmem
  obtain ⟨c, _, hc⟩ := hmem
  by_cases h : c = '\r'
  · rw [if_pos h] at hc
    exact absurd hc (by decide)
  · rw [if_neg h] at hc
    rw [hc] at h
    exact h rfl

theorem mem_rustLines_sub (l : List Char) :
    ∀ x ∈ rustLines l, ∀ c ∈ x, c ∈ l ∧ ¬(c = '\n') := by
  intro x hx
  unfold rustLines at hx
  split at hx
  · simp at hx
  · split at hx
    · have hx2 : x ∈ splitNL l := List.dropLast_subset _ hx
      exact mem_of_mem_splitSep '\n' l x hx2
    · exact mem_of_mem_splitSep '\n' l x hx

theorem replaceCRLF_id : ∀ s : List Char, '\r' ∉ s → replaceCRLF s = s := by
  intro s
  induction s with
  | nil => intro _; rfl
  | cons c t ih =>
    intro h
    have hc : ¬ (c = '\r') := fun he => h (by rw [he]; exact List.mem_cons_self _ t)
    have ht : '\r' ∉ t := fun hm => h (List.mem_cons_of_mem c hm)
    cases t with
    | nil => rfl
    | cons d tt =>
      show replaceCRLF (c :: d :: tt) = c :: d :: tt
      simp only [replaceCRLF]
      rw [if_neg (fun hand => hc hand.1), ih ht]

theorem replaceCR_id : ∀ s : List Char, '\r' ∉ s → replaceCR s = s := by
  intro s h
  unfold replaceCR
  have : ∀ c ∈ s, (if c = '\r' then '\n' else c) = id c := by
    intro c hcm
    have : ¬ (c = '\r') := fun he => h (he ▸ hcm)
    simp [this]
  rw [List.map_congr_left this, List.map_id]

theorem normalize_id_of_no_cr (s : List Char) (h : '\r' ∉ s) :
    normalize_newlines s = s := by
  unfold normalize_newlines
  rw [replaceCRLF_id s h, replaceCR_id s h]

theorem getLast?_ne_nl_of (z : List Char) (hz : z ≠ []) (hno : '\n' ∉ z) :
    z.getLast? ≠ some '\n' := by
  rw [List.getLast?_eq_getLast z hz]
  intro hcontra
  rw [Option.some_inj] at hcontra
  have hmem := List.getLast_mem hz
  rw [hcontra] at hmem
  exact hno hmem

theorem rustLines_joinNL (K : List (List Char)) (hnoNL : ∀ x ∈ K, '\n' ∉ x)
    (hne : K ≠ []) :
    rustLines (joinNL K) = if K.getLast? = some [] then K.dropLast else K := by
  rcases K.eq_nil_or_concat with hnil | ⟨K₁, z, hKc⟩
  · exact absurd hnil hne
  · rw [List.concat_eq_append] at hKc
    subst hKc
    by_cases hz : z = []
    · subst hz
      rw [List.getLast?_concat, if_pos rfl, List.dropLast_concat]
      cases K₁ with
      | nil => rfl
      | cons a t =>
        have hjoin : joinNL ((a :: t) ++ [([] : List Char)]) =
            joinNL (a :: t) ++ ['\n'] := joinNL_concat (a :: t) [] (by simp)
        unfold rustLines
        rw [if_neg (by rw [hjoin]; simp), if_pos (by rw [hjoin, List.getLast?_concat])]
        rw [splitNL_joinNL _ hnoNL (by simp), List.dropLast_concat]
    · rw [List.getLast?_concat, if_neg (by simp [hz])]
      have hzK : z ∈ K₁ ++ [z] := by simp
      have hznoNL : '\n' ∉ z := hnoNL z hzK
      have hjne : joinNL (K₁ ++ [z]) ≠ [] := by
        cases K₁ with
        | nil => simpa using hz
        | cons a t =>
          rw [joinNL_concat (a :: t) z (by simp)]
          simp
      have hgl : (joinNL (K₁ ++ [z])).getLast? ≠ some '\n' := by
        cases K₁ with
        | nil =>
          show (joinNL [z]).getLast? ≠ some '\n'
          exact getLast?_ne_nl_of z hz hznoNL
        | cons a t =>
          rw [joinNL_concat (a :: t) z (by simp)]
          rw [show ('\n' :: z) = ['\n'] ++ z from rfl, ← List.append_assoc]
          rw [List.getLast?_append_of_ne_nil _ hz]
          exact getLast?_ne_nl_of z hz hznoNL
      unfold rustLines
      rw [if_neg hjne, if_neg hgl]
      exact splitNL_joinNL _ hnoNL (by simp)

/-- C10 (amended): `strip_external_banner_lines` is idempotent except on
a trailing newline — for every string, a second application returns the
first result unchanged unless that result ends with a newline (the last
kept line was empty), in which case exactly that final newline is
removed (`Vec::join` re-splitting loses a trailing empty line).  In
particular the filter is idempotent on every input whose filtered output
does not end with a newline. -/
theorem C10_strip_idempotent_amended (s : List Char) :
    strip_external_banner_lines (strip_external_banner_lines s) =
      if (strip_external_banner_lines s).getLast? = some '\n'
      then (strip_external_banner_lines s).dropLast
      else strip_external_banner_lines s := by
  set K := (rustLines (normalize_newlines s)).filter keepLine with hK
  have hstrip : strip_external_banner_lines s = joinNL K := rfl
  have hKkeep : ∀ x ∈ K, keepLine x = true := fun x hx => List.of_mem_filter hx
  have hKsub : ∀ x ∈ K, x ∈ rustLines (normalize_newlines s) :=
    fun x hx => (List.mem_filter.mp hx).1
  have hKnoNL : ∀ x ∈ K, '\n' ∉ x := by
    intro x hx hmem
    exact (mem_rustLines_sub _ x (hKsub x hx) '\n' hmem).2 rfl
  have hnoCRjoin : '\r' ∉ joinNL K := by
    intro hmem
    rcases mem_joinNL K '\r' hmem with h1 | ⟨x, hx, hcx⟩
    · exact absurd h1 (by decide)
    · exact no_cr_normalize s ((mem_rustLines_sub _ x (hKsub x hx) '\r' hcx).1)
  have hnorm : normalize_newlines (joinNL K) = joinNL K :=
    normalize_id_of_no_cr _ hnoCRjoin
  rw [hstrip]
  show joinNL ((rustLines (normalize_newlines (joinNL K))).filter keepLine) = _
  rw [hnorm]
  by_cases hKe : K = []
  · rw [hKe]
    decide
  · rw [rustLines_joinNL K hKnoNL hKe]
    by_cases hlast : K.getLast? = some []
    · rw [if_pos hlast]
      have hfilter : K.dropLast.filter keepLine = K.dropLast :=
        List.filter_eq_self.mpr (fun a ha => hKkeep a (List.dropLast_subset K ha))
      rw [hfilter]
      rcases K.eq_nil_or_concat with h | ⟨K₁, z, hKc⟩
      · exact absurd h hKe
      · rw [List.concat_eq_append] at hKc
        have hz : z = [] := by
          rw [hKc, List.getLast?_concat] at hlast
          exact Option.some_inj.mp hlast
        subst hz
        rw [hKc]
        cases K₁ with
        | nil => decide
        | cons a t =>
          have hjoin : joinNL ((a :: t) ++ [([] : List Char)]) =
              joinNL (a :: t) ++ ['\n'] := joinNL_concat (a :: t) [] (by simp)
          rw [List.dropLast_concat, hjoin, List.getLast?_concat, if_pos rfl,
            List.dropLast_concat]
    · rw [if_neg hlast]
      have hfilter : K.filter keepLine = K := List.filter_eq_self.mpr hKkeep
      rw [hfilter]
      have hgl : (joinNL K).getLast? ≠ some '\n' := by
        rcases K.eq_nil_or_concat with h | ⟨K₁, z, hKc⟩
        · exact absurd h hKe
        · rw [List.concat_eq_append] at hKc
          have hz : z ≠ [] := by
            intro hcontra
            rw [hKc, List.getLast?_concat] at hlast
            exact hlast (by rw [hcontra])
          have hzK : z ∈ K := by rw [hKc]; simp
          have hznoNL : '\n' ∉ z := hKnoNL z hzK
          rw [hKc]
          cases K₁ with
          | nil =>
            show (joinNL [z]).getLast? ≠ some '\n'
            exact getLast?_ne_nl_of z hz hznoNL
          | cons a t =>
            rw [joinNL_concat (a :: t) z (by simp)]
            rw [show ('\n' :: z) = ['\n'] ++ z from rfl, ← List.append_assoc]
            rw [List.getLast?_append_of_ne_nil _ hz]
            exact getLast?_ne_nl_of z hz hznoNL
      rw [if_neg hgl]

/-- C10: counterexample — on `"a\n\n"` the filter keeps the lines
`"a"` and `""` and joins them to `"a\n"`; re-applying the filter splits
`"a\n"` into the single line `"a"` (Rust `str::lines` drops the final
empty piece of a trailing newline) and returns `"a"`, so the function is
not idempotent. -/
theorem C10_not_idempotent_counterexample :
    strip_external_banner_lines "a\n\n".data = "a\n".data ∧
    strip_external_banner_lines (strip_external_banner_lines "a\n\n".data) =
      "a".data ∧
    ¬ (strip_external_banner_lines (strip_external_banner_lines "a\n\n".data) =
       strip_external_banner_lines "a\n\n".data) := by
  refine ⟨by decide, by decide, by decide⟩
